import Mathlib

set_option linter.unusedSectionVars false

/-!
# Verification of the `indulgent` reactivity runtime

A shallow embedding, in Lean 4, of the signal/computed/effect engine of the
`indulgent` repository (`src/indulgent/src/signal/signal.ts` and
`src/indulgent/src/signal/eventEmitter.ts`) and of the DOM list-reconciliation
layer (`src/dom/src/client/index.ts`), together with theorems settling the
specification's claims about them.

Modelling conventions:
* A JavaScript `Set` is modelled as a duplicate-free `List` in insertion order
  (`add` appends when absent, `delete` removes, iteration is list order).
* Listener callbacks are modelled as opaque labels (`L`); a "call" of a
  listener is recorded in a delivery log instead of executing code.
* `queueMicrotask` is modelled by counting the queued callbacks and running
  them FIFO; since the microtasks relevant to a single emitter only run that
  emitter's `processUpdates`, a pending-callback counter is faithful.
* State that a method mutates in place becomes explicit state passing.

The file is laid out as: all definitions first, then all theorems.
-/

namespace Indulgent

/-- JavaScript `Set.prototype.add` on an insertion-ordered list:
append the element when it is not yet present. -/
def addSet {α : Type} [DecidableEq α] (x : α) (xs : List α) : List α :=
  if x ∈ xs then xs else xs ++ [x]

/-- `for (const l of src) dst.add(l)`: fold `addSet` over `src` starting
from `dst`. -/
def addAll {α : Type} [DecidableEq α] (dst src : List α) : List α :=
  src.foldl (fun acc l => addSet l acc) dst

/-! ## The batched emitter (`NextMicroTaskEmitter`, eventEmitter.ts lines 27-79)

State of the class: `listeners` and `scheduledUpdates` are JS `Set`s of
listener callbacks, `updateQueued` a boolean, `lastEvent` either a value or
the `NO_EMIT_VALUE` sentinel (modelled as `Option`). -/

structure NextMicroTaskEmitter (L T : Type) where
  listeners : List L
  scheduledUpdates : List L
  updateQueued : Bool
  lastEvent : Option T
  deriving Repr, DecidableEq

namespace NextMicroTaskEmitter

variable {L T : Type} [DecidableEq L]

/-- A freshly constructed emitter. -/
def mk0 : NextMicroTaskEmitter L T :=
  ⟨[], [], false, none⟩

/-- `on(listener)` (eventEmitter.ts lines 38-41): add to `listeners` only. -/
def onL (e : NextMicroTaskEmitter L T) (l : L) : NextMicroTaskEmitter L T :=
  { e with listeners := addSet l e.listeners }

/-- `off(listener)` (eventEmitter.ts lines 43-47): delete from both
`listeners` and `scheduledUpdates`. -/
def offL (e : NextMicroTaskEmitter L T) (l : L) : NextMicroTaskEmitter L T :=
  { e with listeners := e.listeners.erase l
           scheduledUpdates := e.scheduledUpdates.erase l }

/-- `emit(event)` (eventEmitter.ts lines 49-65), state part: when an update
is already queued, clear `scheduledUpdates`; then add every current listener
to `scheduledUpdates`; record the event; set `updateQueued`.  The
`queueMicrotask` call — performed on EVERY emit, with no idle check — is
accounted for by the caller (`SignalWorld.set` and the run functions below
increment a pending-callback counter by one per emit). -/
def emitStep (e : NextMicroTaskEmitter L T) (v : T) : NextMicroTaskEmitter L T :=
  { listeners := e.listeners
    scheduledUpdates :=
      addAll (if e.updateQueued then [] else e.scheduledUpdates) e.listeners
    updateQueued := true
    lastEvent := some v }

/-- `processUpdates` (eventEmitter.ts lines 67-78): with no recorded event it
throws `EventEmitterError` (third component `false`); otherwise it calls each
scheduled listener with (a structured clone of) the last event — returned
here as a delivery log — then clears `scheduledUpdates` and resets
`updateQueued`. -/
def processStep (e : NextMicroTaskEmitter L T) :
    List (L × T) × NextMicroTaskEmitter L T × Bool :=
  match e.lastEvent with
  | none => ([], e, false)
  | some v =>
      (e.scheduledUpdates.map (fun l => (l, v)),
       { e with scheduledUpdates := [], updateQueued := false }, true)

end NextMicroTaskEmitter

/-! ## The signal cell (`SignalImplementation`, signal.ts lines 72-138)

`value` is the stored value, `dependents` the JS `Set` of registered listener
callbacks, `emitter` the signal's own `NextMicroTaskEmitter`.  The extra run
bookkeeping (`pending` microtask callbacks, delivery `log`, `errored` flag for
a thrown `EventEmitterError`) makes executions observable. -/

structure SignalWorld (L V : Type) where
  value : V
  dependents : List L
  emitter : NextMicroTaskEmitter L V
  pending : Nat
  log : List (L × V)
  errored : Bool
  deriving Repr, DecidableEq

namespace SignalWorld

variable {L V : Type} [DecidableEq L] [DecidableEq V]

/-- The constructor (signal.ts lines 81-91): stores the initial value, no
dependents, a fresh emitter. -/
def mkSignal (v0 : V) : SignalWorld L V :=
  ⟨v0, [], NextMicroTaskEmitter.mk0, 0, [], false⟩

/-- `set(newValue)` (signal.ts lines 99-105): when the configured equality
function holds between the current and the new value, nothing happens;
otherwise store the new value and `emit` it (which queues one microtask
callback).  The repository's default equality function is
`JSON.stringify(a) === JSON.stringify(b)` (deep-value equality,
signal.ts line 84); `eqFn` abstracts over the configured function. -/
def set (eqFn : V → V → Bool) (v : V) (w : SignalWorld L V) : SignalWorld L V :=
  if eqFn w.value v then w
  else { w with value := v
                emitter := w.emitter.emitStep v
                pending := w.pending + 1 }

/-- A burst of consecutive synchronous `set` calls. -/
def setMany (eqFn : V → V → Bool) (vs : List V) (w : SignalWorld L V) :
    SignalWorld L V :=
  vs.foldl (fun acc v => set eqFn v acc) w

/-- `registerDependent(listener)` (signal.ts lines 113-120): add to the
`dependents` set; only when the set grew, also `emitter.on(listener)`. -/
def registerDependent (l : L) (w : SignalWorld L V) : SignalWorld L V :=
  if l ∈ w.dependents then w
  else { w with dependents := w.dependents ++ [l]
                emitter := w.emitter.onL l }

/-- `unregisterDependent(listener)` (signal.ts lines 122-129): delete from
the `dependents` set; when it was present, also `emitter.off(listener)`. -/
def unregisterDependent (l : L) (w : SignalWorld L V) : SignalWorld L V :=
  if l ∈ w.dependents then
    { w with dependents := w.dependents.erase l
             emitter := w.emitter.offL l }
  else w

/-- Register a list of dependents in order. -/
def registerMany (ls : List L) (w : SignalWorld L V) : SignalWorld L V :=
  ls.foldl (fun acc l => registerDependent l acc) w

/-- Run one queued microtask callback (a `processUpdates` call), appending
its deliveries to the log. -/
def flushOne (w : SignalWorld L V) : SignalWorld L V :=
  match w.pending with
  | 0 => w
  | Nat.succ k =>
      let r := w.emitter.processStep
      { w with emitter := r.2.1
               pending := k
               log := w.log ++ r.1
               errored := w.errored || !r.2.2 }

/-- Run `n` queued microtask callbacks FIFO. -/
def flushN : Nat → SignalWorld L V → SignalWorld L V
  | 0, w => w
  | Nat.succ n, w => flushN n (flushOne w)

/-- Run every currently queued microtask callback. -/
def flushAll (w : SignalWorld L V) : SignalWorld L V :=
  flushN w.pending w

/-- A signal at rest: listeners `D` registered, nothing pending. -/
def clean (D : List L) (v0 : V) : SignalWorld L V :=
  ⟨v0, D, ⟨D, [], false, none⟩, 0, [], false⟩

/-- The signal during a burst of `k ≥ 1` value-changing `set` calls whose
latest value is `v`: every listener is scheduled, `k` microtask callbacks are
queued. -/
def burst (D : List L) (v : V) (k : Nat) : SignalWorld L V :=
  ⟨v, D, ⟨D, D, true, some v⟩, k, [], false⟩

/-- The signal after the first queued callback of a burst has delivered:
`k` further callbacks remain queued but nothing is scheduled any more. -/
def drained (D : List L) (v : V) (k : Nat) (lg : List (L × V)) :
    SignalWorld L V :=
  ⟨v, D, ⟨D, [], false, some v⟩, k, lg, false⟩

/-- Each value in the list differs (under `eqFn`) from its predecessor,
starting from `v`. -/
def chainDistinct (eqFn : V → V → Bool) : V → List V → Bool
  | _, [] => true
  | v, v' :: vs => !eqFn v v' && chainDistinct eqFn v' vs

end SignalWorld

/-! ## Computed-signal dependency reconciliation
(`ComputedSignalImplementation.track`, signal.ts lines 250-287)

Upstream signals are opaque identifiers `S`.  `dependencies` models the
`this.dependencies` JS `Set`; `subscribed` models which upstream signals
currently hold this computed's `dependencyFn` in their dependent sets (the
net effect of the `registerDependent`/`unregisterDependent` calls issued by
`track()`). -/

structure ComputedDeps (S : Type) where
  dependencies : List S
  subscribed : List S
  deriving Repr, DecidableEq

namespace ComputedDeps

variable {S : Type} [DecidableEq S]

/-- State at construction, before the eager first `track()` run. -/
def init : ComputedDeps S := ⟨[], []⟩

/-- The subscription-reconciliation part of one `track()` run
(signal.ts lines 260-282).  `reads` is the list the dependency tracker
returned for this run (one entry per `get()` call, in order).
First loop (lines 260-272): for each `dep` of `this.dependencies`, when `dep`
is not among the new reads, call `dep.unregisterDependent(this.dependencyFn)`
— note that `this.dependencies` itself is never shrunk here.
Second loop (lines 273-282): for each `dep` of the reads, when `dep` is
already in `this.dependencies` skip it (`continue`, which also skips the
`add`); otherwise register `dependencyFn` on it and add it to
`this.dependencies`. -/
def reconcile (reads : List S) (st : ComputedDeps S) : ComputedDeps S :=
  let sub1 := st.dependencies.foldl
    (fun sub dep => if dep ∈ reads then sub else sub.erase dep) st.subscribed
  let r := reads.foldl
    (fun (acc : List S × List S) dep =>
      if dep ∈ acc.1 then acc else (acc.1 ++ [dep], addSet dep acc.2))
    (st.dependencies, sub1)
  ⟨r.1, r.2⟩

/-- The sibling reconciliation in `Effect.track` (signal.ts lines 341-361):
identical except that its first loop DOES delete the dropped dependency from
`this.dependencies` (line 350, `this.dependencies.delete(dep)`). -/
def effectReconcile (reads : List S) (st : ComputedDeps S) : ComputedDeps S :=
  let a := st.dependencies.foldl
    (fun (acc : List S × List S) dep =>
      if dep ∈ reads then acc else (acc.1.erase dep, acc.2.erase dep))
    (st.dependencies, st.subscribed)
  let r := reads.foldl
    (fun (acc : List S × List S) dep =>
      if dep ∈ acc.1 then acc else (acc.1 ++ [dep], addSet dep acc.2))
    a
  ⟨r.1, r.2⟩

end ComputedDeps

/-! ## The dependency tracker (`track` and the `reaction` slot,
signal.ts lines 198-213)

`reaction` is a process-wide nullable slot holding the innermost active
collector closure; each `track` call allocates its own `signals` array,
installs a closure appending to it, and restores the previous slot value in
a `finally`.  A signal's `get()` (signal.ts line 95) reports the signal to
the active closure on every call.  The slot-with-closures mechanism is
modelled by a stack of collector buffers whose head is the active one. -/

/-- The reads a tracked callback performs: `aget s` is a `get()` call on
signal `s`, `seq`/`skip` sequence them, `sub body` is a nested `track`
call. -/
inductive TAct : Type
  | aget (s : Nat)
  | seq (a b : TAct)
  | skip
  | sub (body : TAct)
  deriving Repr, DecidableEq

/-- Execute a callback body against the collector stack: a `get()` appends
its signal to the innermost active buffer (none active: no-op, the
`reaction?.()` optional call); a nested `track` pushes a fresh buffer and
pops it again on exit (save/restore of the `reaction` slot). -/
def execAct : TAct → List (List Nat) → List (List Nat)
  | .aget _, [] => []
  | .aget s, buf :: rest => (buf ++ [s]) :: rest
  | .seq a b, stk => execAct b (execAct a stk)
  | .skip, stk => stk
  | .sub body, stk => (execAct body ([] :: stk)).tail

/-- `track(callback)` (signal.ts lines 201-213): run the callback with a
fresh collector installed; return the collected signal list and the restored
outer tracker state. -/
def trackRun (body : TAct) (stk : List (List Nat)) :
    List Nat × List (List Nat) :=
  match execAct body ([] :: stk) with
  | [] => ([], [])
  | buf :: rest => (buf, rest)

/-- The `get()` calls a body performs for its own tracker, in order and with
multiplicity — calls made inside a nested `track` report to the inner
tracker instead. -/
def trackGets : TAct → List Nat
  | .aget s => [s]
  | .seq a b => trackGets a ++ trackGets b
  | .skip => []
  | .sub _ => []

/-! ## Effect scheduling (`Effect`, signal.ts lines 317-362)

The effect's callback is opaque; `runs` counts its executions.  A microtask
is either `flush i` — upstream signal `i`'s emitter callback delivering a
notification to the effect's `dependencyFn` — or `rerun`, the microtask
`dependencyFn` itself queues.  The queue is FIFO, as `queueMicrotask` is. -/

inductive EffTask : Type
  | flush (i : Nat)
  | rerun
  deriving Repr, DecidableEq

structure EffSt where
  scheduled : Bool
  runs : Nat
  deriving Repr, DecidableEq

/-- The `Effect` constructor (signal.ts lines 323-327) runs the tracked
callback once, synchronously. -/
def effectInit : EffSt := ⟨false, 1⟩

/-- `dependencyFn` (signal.ts lines 329-339): when already scheduled, return;
otherwise set `scheduled` and queue one re-run microtask. -/
def effDependencyFn (s : EffSt) : EffSt × List EffTask :=
  if s.scheduled then (s, [])
  else ({ s with scheduled := true }, [.rerun])

/-- Run one microtask.  An upstream flush invokes `dependencyFn`; the queued
re-run (signal.ts lines 335-338) clears `scheduled` and re-runs the tracked
callback (`Effect.track` re-reads the upstream signals and re-registers,
which queues no further microtasks). -/
def runEffTask : EffTask → EffSt → EffSt × List EffTask
  | .flush _, s => effDependencyFn s
  | .rerun, s => (⟨false, s.runs + 1⟩, [])

def effTaskWeight : EffTask → Nat
  | .flush _ => 2
  | .rerun => 1

def effQueueWeight (q : List EffTask) : Nat := (q.map effTaskWeight).sum

/-- Fuel-indexed FIFO processing of the microtask queue: run the head task,
append its newly queued tasks at the back. -/
def runEffQueueF : Nat → List EffTask → EffSt → EffSt
  | 0, _, s => s
  | _ + 1, [], s => s
  | fuel + 1, t :: rest, s =>
      let r := runEffTask t s
      runEffQueueF fuel (rest ++ r.2) r.1

/-- Process the queue to completion (the weight bounds the number of steps:
a flush spawns at most one `rerun` and a `rerun` spawns nothing). -/
def runEffQueue (q : List EffTask) (s : EffSt) : EffSt :=
  runEffQueueF (effQueueWeight q) q s

/-! ## Storage-backed signals (`storeSignal`, signal.ts lines 158-196) -/

/-- The pluggable key-value `Storage` collaborator. -/
structure StorageModel where
  pairs : List (String × String)
  deriving Repr, DecidableEq

def StorageModel.getItem (st : StorageModel) (k : String) : Option String :=
  (st.pairs.find? (fun p => p.1 == k)).map Prod.snd

def StorageModel.setItem (st : StorageModel) (k v : String) : StorageModel :=
  if st.pairs.any (fun p => p.1 == k) then
    ⟨st.pairs.map (fun p => if p.1 == k then (k, v) else p)⟩
  else ⟨st.pairs ++ [(k, v)]⟩

/-- Construction phase of `storeSignal` (signal.ts lines 158-177).  `parse`
and `stringify` stand for the platform's `JSON.parse` / `JSON.stringify`
(builtins, not repository code); `JSON.parse` throwing on malformed input is
modelled by `parse` returning `none`.  When the stored value for `key` is
present but fails to parse, the constructor throws a typed `SignalError`
(lines 166-173); when it is absent, the caller's initial value is used and
written back (lines 174-177).  Returns the constructed signal's initial
value together with the resulting storage.  (The custom `equalsFn` closure
and the persist-on-change dependent installed on lines 178-195 concern later
writes, not construction, and do not affect this result.) -/
def storeSignalInit {V : Type} (storage : StorageModel) (key : String)
    (initial : V) (parse : String → Option V) (stringify : V → String) :
    Except String (V × StorageModel) :=
  match storage.getItem key with
  | some stored =>
      match parse stored with
      | none =>
          Except.error ("SignalError: Failed to parse stored value for key " ++ key)
      | some v => Except.ok (v, storage)
  | none => Except.ok (initial, storage.setItem key (stringify initial))

/-! ## Value heaps and `structuredClone`
(signal.ts line 96, eventEmitter.ts line 74)

`get()` returns `structuredClone(this.value)` and `processUpdates` delivers
`structuredClone(this.lastEvent)` separately to each scheduled listener.  To
state what the deep copy buys — mutating the object handed out never changes
the value the signal stores — object identity must be visible, so values
live in an addressed heap: a node is a primitive or an object whose fields
hold addresses of strictly earlier nodes (signal values are JSON-style data —
the default equality serializes them with `JSON.stringify` — so the acyclic,
lower-address discipline is faithful).  `structuredClone` additionally
preserves sharing inside the copied value, which this claim never observes
(the copy is value-equal and address-disjoint from the original either way);
the model copies the value tree.  Out-of-fuel / dangling-address reads
default to `JVal.prim 0`; under the well-formedness discipline they are
unreachable. -/

mutual
inductive JVal : Type
  | prim (n : Int)
  | obj (fields : JFields)
  deriving Repr, DecidableEq

inductive JFields : Type
  | fnil
  | fcons (k : String) (v : JVal) (rest : JFields)
  deriving Repr, DecidableEq
end

def listToJFields : List (String × JVal) → JFields
  | [] => JFields.fnil
  | p :: ps => JFields.fcons p.1 p.2 (listToJFields ps)

/-- A heap node: a primitive, or an object whose field slots hold addresses
of (strictly earlier) nodes. -/
inductive HeapNode : Type
  | prim (n : Int)
  | obj (fields : List (String × Nat))
  deriving Repr, DecidableEq

structure Heap where
  nodes : List HeapNode
  deriving Repr, DecidableEq

def Heap.lookup (h : Heap) (a : Nat) : Option HeapNode :=
  h.nodes.get? a

/-- Mutation of one heap cell — the model of a caller writing through an
object reference it holds. -/
def Heap.setNode (h : Heap) (b : Nat) (nd : HeapNode) : Heap :=
  ⟨h.nodes.set b nd⟩

/-- Executable well-formedness: every object node's field addresses point
strictly below the node. -/
def Heap.wfb (h : Heap) : Bool :=
  (List.range h.nodes.length).all (fun i =>
    match h.nodes.get? i with
    | some (HeapNode.obj fs) => fs.all (fun p => decide (p.2 < i))
    | _ => true)

/-- Field addresses of every object node below `N` point strictly below the
node. -/
def Heap.ChildrenOk (h : Heap) (N : Nat) : Prop :=
  ∀ i fs, i < N → h.lookup i = some (HeapNode.obj fs) → ∀ p ∈ fs, p.2 < i

/-- Read the value tree rooted at address `a` (the fuel `a + 1` always
suffices on a well-formed heap, since addresses strictly decrease). -/
def interpF : Nat → Heap → Nat → JVal
  | 0, _, _ => JVal.prim 0
  | fuel + 1, h, a =>
    match h.lookup a with
    | none => JVal.prim 0
    | some (HeapNode.prim n) => JVal.prim n
    | some (HeapNode.obj fs) =>
        JVal.obj (listToJFields (fs.map (fun p => (p.1, interpF fuel h p.2))))

def Heap.interp (h : Heap) (a : Nat) : JVal :=
  interpF (a + 1) h a

mutual
/-- Copy a value tree into the heap as fresh nodes (children first), and
return the address of the new root. -/
def appendVal : Heap → JVal → Heap × Nat
  | h, JVal.prim n => (⟨h.nodes ++ [HeapNode.prim n]⟩, h.nodes.length)
  | h, JVal.obj fs =>
      let r := appendFields h fs
      (⟨r.1.nodes ++ [HeapNode.obj r.2]⟩, r.1.nodes.length)

def appendFields : Heap → JFields → Heap × List (String × Nat)
  | h, JFields.fnil => (h, [])
  | h, JFields.fcons k v rest =>
      let c := appendVal h v
      let r := appendFields c.1 rest
      (r.1, (k, c.2) :: r.2)
end

/-- `structuredClone` of the value rooted at `a`: append a disjoint,
value-equal copy and return its root address.  This is what `get()`
(signal.ts line 96) hands to its caller and what `processUpdates`
(eventEmitter.ts line 74) hands — once per listener — to each scheduled
listener. -/
def cloneVal (h : Heap) (a : Nat) : Heap × Nat :=
  appendVal h (h.interp a)

/-- The delivery loop of `processUpdates` (eventEmitter.ts lines 72-75) over
a heap-valued event: each scheduled listener, in order, receives its own
fresh `structuredClone` of the last event (the clone runs inside the loop,
once per listener). -/
def deliverClones (h : Heap) (a : Nat) : List Nat → Heap × List (Nat × Nat)
  | [] => (h, [])
  | l :: ls =>
      let c := cloneVal h a
      let r := deliverClones c.1 a ls
      (r.1, (l, c.2) :: r.2)

/-! ## The DOM list reconciler (`src/dom/src/client/index.ts`)

Embeds `manageArraySignals` (lines 328-400), `getPath`
(`src/indulgent/src/util/object.ts`), and the `update` closure of
`handleForBindings` (lines 499-558), specialized to a template element
carrying one output binding whose value is an alias-rooted dotted path
(e.g. `obind:text_content="item.name"`), as in the claim's scenario.

Modelling conventions for this layer:
* JS values flowing through bindings are `DVal` (undefined, number, string,
  object with insertion-ordered fields).
* Dotted paths arrive pre-split on `"."` as `List String`; the source splits
  the attribute strings with the platform's `String.prototype.split`.
* Context keys: the source stores per-index derived signals in the shared
  context object under the string key `__indulgent_for_<arrayName>_<index>`
  and recognizes them with the regex `^__indulgent_for_<arrayName>_(\d+)$`
  (line 344); key construction and that regex are in exact bijection with
  the structured key `CtxKey.forIdx arrayName index` used here.
* The context object is an insertion-ordered association list (JS object
  string-key semantics: `delete` then re-assign moves the key to the end).
* A per-index Computed Signal is represented by its current internal value
  (`CompSig.value`); its constructor runs the compute function eagerly, so a
  freshly created per-index signal holds `newArray[index]`.
* A DOM element clone is a `DElem` with a unique `nodeId` (fresh per
  `el.cloneNode(true)` call), the per-index key it was rewritten to, and the
  value its output binding last wrote into the bound property. -/

mutual
inductive DVal : Type
  | undef
  | num (n : Int)
  | str (s : String)
  | obj (fields : DFields)
  deriving Repr, DecidableEq

inductive DFields : Type
  | dnil
  | dcons (k : String) (v : DVal) (rest : DFields)
  deriving Repr, DecidableEq
end

def DFields.get? : DFields → String → Option DVal
  | DFields.dnil, _ => none
  | DFields.dcons k v rest, q => if k == q then some v else rest.get? q

def listToDFields : List (String × DVal) → DFields
  | [] => DFields.dnil
  | p :: ps => DFields.dcons p.1 p.2 (listToDFields ps)

/-- Convenience constructor for object literals. -/
def mkObj (l : List (String × DVal)) : DVal :=
  DVal.obj (listToDFields l)

/-- JS property read `current[part]` as used by `getPath`: a field of an
object, `undefined` for a missing field or a non-object receiver. -/
def DVal.propGet : DVal → String → DVal
  | DVal.obj fs, k =>
      (match fs.get? k with
       | some v => v
       | none => DVal.undef)
  | _, _ => DVal.undef

/-- `getPath` (object.ts lines 54-64): walk the pre-split path; a nullish
intermediate yields `undefined`. -/
def getPath (v : DVal) (path : List String) : DVal :=
  path.foldl (fun cur part =>
    match cur with
    | DVal.undef => DVal.undef
    | _ => cur.propGet part) v

/-- JS strict inequality `a !== b` as it occurs at
`manageArraySignals` line 385, where the left operand always stems from
`existingSignal.get()` — a fresh `structuredClone` — so two object operands
are never the same reference (`!==` is true); primitives compare by value,
operands of different kinds are `!==`. -/
def strictNeqRef (a b : DVal) : Bool :=
  match a, b with
  | DVal.undef, DVal.undef => false
  | DVal.num x, DVal.num y => !(x == y)
  | DVal.str x, DVal.str y => !(x == y)
  | _, _ => true

/-- A context key: a plain named entry, or the per-index derived-signal key
`__indulgent_for_<arrayName>_<index>`. -/
inductive CtxKey : Type
  | named (s : String)
  | forIdx (arrayName : String) (i : Nat)
  deriving Repr, DecidableEq

/-- A per-index Computed Signal, by its current internal value. -/
structure CompSig where
  value : DVal
  deriving Repr, DecidableEq

abbrev Ctx : Type := List (CtxKey × CompSig)

def ctxFind (ctx : Ctx) (k : CtxKey) : Option CompSig :=
  (ctx.find? (fun p => decide (p.1 = k))).map Prod.snd

def ctxErase (ctx : Ctx) (k : CtxKey) : Ctx :=
  ctx.filter (fun p => !decide (p.1 = k))

/-- `array[index]`: `undefined` out of bounds. -/
def arrGet (arr : List DVal) (i : Nat) : DVal :=
  arr.getD i DVal.undef

/-- The `update` closure of `manageArraySignals` (lines 336-397) for array
signal `arrayName`, run against the new array value.
Cleanup loop (lines 343-351): delete per-index keys of this array whose
index is out of range.  Per-item loop (lines 352-396): a missing per-index
signal is created (its eager compute reads `newArr[index]`); an existing one
is kept only when the key-path value of its current (cloned) value strictly
equals the key-path value of the new item (with fallback to the whole item
when the path resolves to `undefined` on the new item, lines 366-372);
otherwise it is discarded (`unregisterAllDependents`, `delete`) and
recreated at the end of the context (lines 385-395). -/
def manageArraySignalsUpdate (ctx : Ctx) (arrayName : String)
    (newArr : List DVal) (path : Option (List String)) : Ctx :=
  let ctx1 : Ctx := ctx.filter (fun p =>
    match p.1 with
    | CtxKey.forIdx nm i =>
        if nm = arrayName then decide (i < newArr.length) else true
    | CtxKey.named _ => true)
  (List.range newArr.length).foldl (fun acc i =>
    let key := CtxKey.forIdx arrayName i
    let item := arrGet newArr i
    match ctxFind acc key with
    | none => acc ++ [(key, ⟨arrGet newArr i⟩)]
    | some existing =>
        let reference := match path with
          | none => item
          | some p =>
              let r := getPath item p
              if r = DVal.undef then item else r
        let existingValue := existing.value
        let existingRef := match path with
          | none => existingValue
          | some p => getPath existingValue p
        if strictNeqRef existingRef reference then
          ctxErase acc key ++ [(key, ⟨arrGet newArr i⟩)]
        else acc) ctx1

/-- A live clone of the template element: `nodeId` is its object identity
(fresh per `cloneNode` call), `forKey` the per-index signal key its alias
bindings were rewritten to (`data-indulgent-for-key`), `boundText` the value
its output binding last wrote into the bound property. -/
structure DElem where
  nodeId : Nat
  forKey : CtxKey
  boundText : DVal
  deriving Repr, DecidableEq

/-- The reconciler state for one `bind:for` template: the shared context,
the clone elements currently following the placeholder comment (in DOM
order), and the next fresh element identity. -/
structure ForState where
  ctx : Ctx
  dom : List DElem
  nextId : Nat
  deriving Repr, DecidableEq

/-- The `update` closure of `handleForBindings` (lines 499-558), for a
template whose single output binding reads `<alias>.<subPath>`:

1. line 506: run `manageArraySignals` against the new array;
2. lines 508-518: collect the existing clones after the placeholder
   (`st.dom`);
3. lines 520-534: for EVERY index of the new array, clone the template
   afresh (`el.cloneNode(true)`, a brand-new element, hence a fresh
   `nodeId`) and `replaceWith` it over the positional existing element —
   or insert it when the array grew;
4. lines 536-541: remove existing elements that are not among the new
   clones — that is all of them, since every expected element is a fresh
   clone; net effect: the rendered list is exactly the new clones;
5. lines 543-548: reorder to the expected order (already ordered here);
6. lines 550-557: rewrite the alias binding on each clone to that index's
   per-index key and run `createBindings`: the dotted-path resolution
   (`getSignal`, lines 685-727) builds a computed walking `subPath` over the
   per-index signal's current value, and `setOutBinding` (lines 631-644)
   eagerly writes that value into the bound property. -/
def handleForUpdate (arrayName : String) (path : Option (List String))
    (subPath : List String) (newArr : List DVal) (st : ForState) : ForState :=
  let ctx1 := manageArraySignalsUpdate st.ctx arrayName newArr path
  let fresh := (List.range newArr.length).map (fun i =>
    { nodeId := st.nextId + i
      forKey := CtxKey.forIdx arrayName i
      boundText := DVal.undef : DElem })
  let bound := fresh.map (fun e =>
    { e with boundText :=
        match ctxFind ctx1 e.forKey with
        | some c => getPath c.value subPath
        | none => DVal.undef })
  { ctx := ctx1, dom := bound, nextId := st.nextId + newArr.length }

/-! The claim's concrete scenario: `bind:for="item of items by item.id"`
with a text binding on `item.name`; the array goes from
`[{id:1,name:'Alice'}, {id:2,name:'Bob'}]` to
`[{id:2,name:'Robert'}, {id:3,name:'Charlie'}]`. -/

def c4Alice : DVal := mkObj [("id", DVal.num 1), ("name", DVal.str ("Alice"))]
def c4Bob : DVal := mkObj [("id", DVal.num 2), ("name", DVal.str ("Bob"))]
def c4Robert : DVal := mkObj [("id", DVal.num 2), ("name", DVal.str ("Robert"))]
def c4Charlie : DVal := mkObj [("id", DVal.num 3), ("name", DVal.str ("Charlie"))]

/-- State after the initial render of `[Alice, Bob]` (the first `update()`
call at registration, line 560). -/
def c4State1 : ForState :=
  handleForUpdate "items" (some ["item", "id"]) ["name"]
    [c4Alice, c4Bob] ⟨[], [], 0⟩

/-- State after the array signal changes to `[Robert, Charlie]` and the
pending flush runs the for-binding's `update`. -/
def c4State2 : ForState :=
  handleForUpdate "items" (some ["item", "id"]) ["name"]
    [c4Robert, c4Charlie] c4State1

end Indulgent

/-! # Theorems -/

namespace Indulgent

theorem addSet_of_mem {α : Type} [DecidableEq α] {x : α} {xs : List α}
    (h : x ∈ xs) : addSet x xs = xs := by
  simp [addSet, h]

theorem addSet_of_not_mem {α : Type} [DecidableEq α] {x : α} {xs : List α}
    (h : x ∉ xs) : addSet x xs = xs ++ [x] := by
  simp [addSet, h]

/-- Adding a duplicate-free list of elements into an empty set reproduces the
list itself. -/
theorem addAll_nil_of_nodup {α : Type} [DecidableEq α] :
    ∀ {src : List α}, src.Nodup → addAll [] src = src := by
  have general : ∀ (src acc : List α), acc.Nodup → src.Nodup →
      (∀ x ∈ src, x ∉ acc) → addAll acc src = acc ++ src := by
    intro src
    induction src with
    | nil => intro acc _ _ _; simp [addAll]
    | cons y ys ih =>
      intro acc haccnd hnd hdisj
      have hy : y ∉ acc := hdisj y (by simp)
      have step : addAll acc (y :: ys) = addAll (acc ++ [y]) ys := by
        simp [addAll, addSet_of_not_mem hy]
      rw [step, ih (acc ++ [y])]
      · simp
      · rw [List.nodup_append]
        refine ⟨haccnd, by simp, ?_⟩
        intro a ha hb
        simp only [List.mem_singleton] at hb
        subst hb
        exact hy ha
      · exact hnd.of_cons
      · intro x hx
        simp only [List.mem_append, List.mem_singleton]
        rintro (hxa | rfl)
        · exact hdisj x (by simp [hx]) hxa
        · exact (List.nodup_cons.mp hnd).1 hx
  intro src h
  simpa using general src [] (by simp) h (by simp)

namespace SignalWorld

variable {L V : Type} [DecidableEq L] [DecidableEq V]

theorem registerMany_mkSignal {D : List L} (v0 : V) (hD : D.Nodup) :
    registerMany D (mkSignal v0) = clean D v0 := by
  have general : ∀ (rest acc : List L), (acc ++ rest).Nodup →
      registerMany rest (clean acc v0) = clean (acc ++ rest) v0 := by
    intro rest
    induction rest with
    | nil => intro acc _; simp [registerMany]
    | cons l ls ih =>
      intro acc hnd
      have hl : l ∉ acc := by
        have := List.disjoint_of_nodup_append hnd
        intro hmem
        exact this hmem (by simp)
      have step : registerDependent l (clean acc v0) = clean (acc ++ [l]) v0 := by
        simp [registerDependent, clean, hl, NextMicroTaskEmitter.onL,
          addSet_of_not_mem hl]
      have : registerMany (l :: ls) (clean acc v0)
          = registerMany ls (clean (acc ++ [l]) v0) := by
        simp [registerMany, step]
      rw [this, ih (acc ++ [l]) (by simpa using hnd)]
      simp
  have h0 : (mkSignal v0 : SignalWorld L V) = clean [] v0 := by
    simp [mkSignal, clean, NextMicroTaskEmitter.mk0]
  rw [h0]
  simpa using general D [] (by simpa using hD)

theorem set_clean {D : List L} {eqFn : V → V → Bool} {v0 v : V}
    (hD : D.Nodup) (h : eqFn v0 v = false) :
    set eqFn v (clean D v0) = burst D v 1 := by
  simp [set, clean, burst, h, NextMicroTaskEmitter.emitStep,
    addAll_nil_of_nodup hD]

theorem set_burst {D : List L} {eqFn : V → V → Bool} {v v' : V} {k : Nat}
    (hD : D.Nodup) (h : eqFn v v' = false) :
    set eqFn v' (burst D v k) = burst D v' (k + 1) := by
  simp [set, burst, h, NextMicroTaskEmitter.emitStep,
    addAll_nil_of_nodup hD]

theorem setMany_burst {D : List L} {eqFn : V → V → Bool} :
    ∀ {vs : List V} {v : V} {k : Nat}, D.Nodup →
    chainDistinct eqFn v vs = true →
    setMany eqFn vs (burst D v k) = burst D (vs.getLastD v) (k + vs.length) := by
  intro vs
  induction vs with
  | nil => intro v k _ _; simp [setMany]
  | cons v' ws ih =>
    intro v k hD hchain
    rw [chainDistinct, Bool.and_eq_true, Bool.not_eq_true'] at hchain
    obtain ⟨h1, h2⟩ := hchain
    have step : setMany eqFn (v' :: ws) (burst D v k)
        = setMany eqFn ws (burst D v' (k + 1)) := by
      simp [setMany, set_burst hD h1]
    rw [step, ih hD h2]
    simp only [List.getLastD_cons, List.length_cons]
    congr 1
    omega

theorem setMany_clean {D : List L} {eqFn : V → V → Bool} {v0 v : V}
    {vs : List V} (hD : D.Nodup)
    (hchain : chainDistinct eqFn v0 (v :: vs) = true) :
    setMany eqFn (v :: vs) (clean D v0)
      = burst D ((v :: vs).getLastD v0) (vs.length + 1) := by
  rw [chainDistinct, Bool.and_eq_true, Bool.not_eq_true'] at hchain
  obtain ⟨h1, h2⟩ := hchain
  have step : setMany eqFn (v :: vs) (clean D v0)
      = setMany eqFn vs (burst D v 1) := by
    simp [setMany, set_clean hD h1]
  rw [step, setMany_burst hD h2]
  simp only [List.getLastD_cons]
  congr 1
  omega

theorem flushOne_burst {D : List L} {v : V} {k : Nat} :
    flushOne (burst D v (Nat.succ k))
      = drained D v k (D.map (fun l => (l, v))) := by
  simp [flushOne, burst, drained, NextMicroTaskEmitter.processStep]

theorem flushOne_drained {D : List L} {v : V} {k : Nat} {lg : List (L × V)} :
    flushOne (drained D v (Nat.succ k) lg) = drained D v k lg := by
  simp [flushOne, drained, NextMicroTaskEmitter.processStep]

theorem flushN_drained {D : List L} {v : V} {lg : List (L × V)} :
    ∀ (n k : Nat), flushN n (drained D v k lg) = drained D v (k - n) lg := by
  intro n
  induction n with
  | zero => intro k; simp [flushN]
  | succ m ih =>
    intro k
    cases k with
    | zero =>
      have h0 : flushOne (drained D v 0 lg) = drained D v 0 lg := by
        simp [flushOne, drained]
      have : ∀ j, flushN j (drained D v 0 lg) = drained D v 0 lg := by
        intro j
        induction j with
        | zero => simp [flushN]
        | succ i ihj => simp [flushN, h0, ihj]
      simpa using this (m + 1)
    | succ k' =>
      show flushN m (flushOne (drained D v (Nat.succ k') lg)) = _
      rw [flushOne_drained, ih k']
      congr 1
      omega

theorem flushN_burst {D : List L} {v : V} {k : Nat} :
    flushN (Nat.succ k) (burst D v (Nat.succ k))
      = drained D v 0 (D.map (fun l => (l, v))) := by
  show flushN k (flushOne (burst D v (Nat.succ k))) = _
  rw [flushOne_burst, flushN_drained]
  simp

theorem flushAll_burst {D : List L} {v : V} {k : Nat} :
    flushAll (burst D v (Nat.succ k))
      = drained D v 0 (D.map (fun l => (l, v))) := by
  show flushN (Nat.succ k) (burst D v (Nat.succ k)) = _
  exact flushN_burst

end SignalWorld

open SignalWorld in
/-- **C2.** For every Signal and every value `v`, calling `set(v)` when `v`
is equality-equal (by the configured equality function — the repository
default being deep-value `JSON.stringify` equality) to the current value is a
no-op: the entire signal state (stored value, dependents, emitter, queued
microtask callbacks) is unchanged, so no dependent listener is ever invoked
for that call and no dependent computed signal or effect re-runs because of
it — subsequent flushing behaves exactly as if the call had not happened. -/
theorem set_equal_value_is_noop {L V : Type} [DecidableEq L] [DecidableEq V]
    (eqFn : V → V → Bool) (v : V) (w : SignalWorld L V)
    (h : eqFn w.value v = true) :
    set eqFn v w = w ∧ flushAll (set eqFn v w) = flushAll w := by
  have h1 : set eqFn v w = w := by simp [SignalWorld.set, h]
  exact ⟨h1, by rw [h1]⟩

open SignalWorld in
/-- Witness for `set_equal_value_is_noop`: a signal holding `5` with one
registered listener, `set 5` under value equality. -/
theorem set_equal_value_is_noop_witness :
    ((fun a b : Nat => a == b)
        (registerMany [0] (mkSignal 5 : SignalWorld Nat Nat)).value 5 = true) ∧
    set (fun a b : Nat => a == b) 5 (registerMany [0] (mkSignal 5))
      = registerMany [0] (mkSignal 5 : SignalWorld Nat Nat) :=
  ⟨by decide,
   (set_equal_value_is_noop (fun a b : Nat => a == b) 5
      (registerMany [0] (mkSignal 5)) (by decide)).1⟩

open SignalWorld in
/-- **C3.** For a signal with a fixed duplicate-free set of registered
listeners `D`, a synchronous burst of `set` calls with (pairwise-adjacent)
distinct values followed by flushing the queued microtask callbacks delivers
exactly one notification to each registered listener, in registration order,
carrying only the final value; no intermediate value is delivered and no
listener is invoked twice (the log is literally `D.map (l, finalValue)` with
`D` duplicate-free), and no internal emitter error occurs. -/
theorem burst_of_sets_delivers_final_value_once
    {L V : Type} [DecidableEq L] [DecidableEq V]
    (eqFn : V → V → Bool) (D : List L) (v0 v : V) (vs : List V)
    (hD : D.Nodup) (hchain : chainDistinct eqFn v0 (v :: vs) = true) :
    (flushAll (setMany eqFn (v :: vs)
        (registerMany D (mkSignal v0)))).log
      = D.map (fun l => (l, (v :: vs).getLastD v0)) ∧
    (flushAll (setMany eqFn (v :: vs)
        (registerMany D (mkSignal v0)))).errored = false := by
  rw [registerMany_mkSignal v0 hD, setMany_clean hD hchain]
  rw [show vs.length + 1 = Nat.succ vs.length from rfl, flushAll_burst]
  simp [drained]

open SignalWorld in
/-- Witness for `burst_of_sets_delivers_final_value_once`: listeners `0, 1`,
burst `set 1; set 2; set 3` from initial value `0`: each listener is notified
exactly once, with `3`. -/
theorem burst_of_sets_delivers_final_value_once_witness :
    ([0, 1] : List Nat).Nodup ∧
    chainDistinct (fun a b : Nat => a == b) 0 [1, 2, 3] = true ∧
    (flushAll (setMany (fun a b : Nat => a == b) [1, 2, 3]
        (registerMany [0, 1] (mkSignal 0 : SignalWorld Nat Nat)))).log
      = [(0, 3), (1, 3)] :=
  ⟨by decide, by decide, by
    have h := (burst_of_sets_delivers_final_value_once
      (fun a b : Nat => a == b) [0, 1] 0 1 [2, 3] (by decide) (by decide)).1
    simpa using h⟩

open SignalWorld in
/-- **C6 counterexample.** The claim says emits after the first in a
contiguous run schedule no additional microtask callback.  In the code,
`emit` calls `queueMicrotask` unconditionally (eventEmitter.ts lines 62-64,
with no idle check), so the second value-changing `set` of a run grows the
number of queued callbacks from 1 to 2. -/
theorem emit_schedules_callback_every_time_counterexample :
    (set (fun a b : Nat => a == b) 1
        (registerMany [0] (mkSignal 0 : SignalWorld Nat Nat))).pending = 1 ∧
    (set (fun a b : Nat => a == b) 2 (set (fun a b : Nat => a == b) 1
        (registerMany [0] (mkSignal 0 : SignalWorld Nat Nat)))).pending = 2 := by
  decide

open SignalWorld in
/-- **C6 amended.** Every `emit` reached during a contiguous run of
value-changing `set` calls schedules one microtask callback — `n` emits queue
`n` callbacks, not one — but only the first queued callback delivers
notifications: it alone already produces the complete delivery log (one
notification per registered listener with the latest value), and running all
remaining callbacks appends nothing and raises no emitter error, so exactly
one delivering flush occurs per contiguous run. -/
theorem one_delivering_flush_per_run
    {L V : Type} [DecidableEq L] [DecidableEq V]
    (eqFn : V → V → Bool) (D : List L) (v0 v : V) (vs : List V)
    (hD : D.Nodup) (hchain : chainDistinct eqFn v0 (v :: vs) = true) :
    (setMany eqFn (v :: vs) (registerMany D (mkSignal v0))).pending
        = vs.length + 1 ∧
    (flushOne (setMany eqFn (v :: vs) (registerMany D (mkSignal v0)))).log
      = D.map (fun l => (l, (v :: vs).getLastD v0)) ∧
    (flushAll (setMany eqFn (v :: vs) (registerMany D (mkSignal v0)))).log
      = D.map (fun l => (l, (v :: vs).getLastD v0)) ∧
    (flushAll (setMany eqFn (v :: vs)
        (registerMany D (mkSignal v0)))).errored = false := by
  rw [registerMany_mkSignal v0 hD, setMany_clean hD hchain]
  rw [show vs.length + 1 = Nat.succ vs.length from rfl]
  refine ⟨rfl, ?_, ?_, ?_⟩
  · rw [flushOne_burst]
    simp [drained]
  · rw [flushAll_burst]
    simp [drained]
  · rw [flushAll_burst]
    simp [drained]

open SignalWorld in
/-- Witness for `one_delivering_flush_per_run`: three sets queue three
callbacks; the flushed log still notifies the single listener once. -/
theorem one_delivering_flush_per_run_witness :
    ([0] : List Nat).Nodup ∧
    chainDistinct (fun a b : Nat => a == b) 0 [1, 2, 3] = true ∧
    (setMany (fun a b : Nat => a == b) [1, 2, 3]
        (registerMany [0] (mkSignal 0 : SignalWorld Nat Nat))).pending = 3 ∧
    (flushAll (setMany (fun a b : Nat => a == b) [1, 2, 3]
        (registerMany [0] (mkSignal 0 : SignalWorld Nat Nat)))).log
      = [(0, 3)] :=
  ⟨by decide, by decide, by
    have h := (one_delivering_flush_per_run
      (fun a b : Nat => a == b) [0] 0 1 [2, 3] (by decide) (by decide)).1
    simpa using h, by
    have h := (one_delivering_flush_per_run
      (fun a b : Nat => a == b) [0] 0 1 [2, 3] (by decide) (by decide)).2.2.1
    simpa using h⟩

open SignalWorld in
/-- **C5 counterexample.** The claim says a listener added (via
`registerDependent`, hence `emitter.on`) after the triggering emit but before
the flush WILL receive that flush.  In the code `on` adds only to
`listeners`, never to `scheduledUpdates` (eventEmitter.ts lines 38-41), and
the flush iterates `scheduledUpdates`, so listener `1`, registered after
`set 5` and before the flush, receives nothing: the log is `[(0, 5)]`. -/
theorem late_registered_listener_misses_flush_counterexample :
    (flushAll (registerDependent 1 (set (fun a b : Nat => a == b) 5
        (registerMany [0] (mkSignal 0 : SignalWorld Nat Nat))))).log
      = [(0, 5)] ∧
    (1, 5) ∉ (flushAll (registerDependent 1 (set (fun a b : Nat => a == b) 5
        (registerMany [0] (mkSignal 0 : SignalWorld Nat Nat))))).log := by
  decide

open SignalWorld in
/-- **C5 amended.** While an emit is pending and not yet flushed: a listener
removed (`unregisterDependent` / `off`) before the flush never receives that
emit's notification; a listener added (`registerDependent` / `on`) after the
triggering emit does NOT receive that flush — membership in a flush is
snapshotted at emit time — but it does receive the flush if a further emit
occurs after its registration and before the flush, with the latest value. -/
theorem pending_flush_membership
    {L V : Type} [DecidableEq L] [DecidableEq V]
    (eqFn : V → V → Bool) (D : List L) (l lnew : L) (v0 v v' : V)
    (hD : D.Nodup) (hl : l ∈ D) (hlnew : lnew ∉ D)
    (hv : eqFn v0 v = false) (hv' : eqFn v v' = false) :
    (∀ p ∈ (flushAll (unregisterDependent l
        (set eqFn v (registerMany D (mkSignal v0))))).log, p.1 ≠ l) ∧
    (flushAll (registerDependent lnew
        (set eqFn v (registerMany D (mkSignal v0))))).log
      = D.map (fun x => (x, v)) ∧
    (∀ p ∈ (flushAll (registerDependent lnew
        (set eqFn v (registerMany D (mkSignal v0))))).log, p.1 ≠ lnew) ∧
    (flushAll (set eqFn v' (registerDependent lnew
        (set eqFn v (registerMany D (mkSignal v0)))))).log
      = (D ++ [lnew]).map (fun x => (x, v')) := by
  rw [registerMany_mkSignal v0 hD, set_clean hD hv]
  have hunreg : unregisterDependent l (burst D v 1)
      = burst (D.erase l) v 1 := by
    simp [unregisterDependent, burst, NextMicroTaskEmitter.offL, hl]
  have hreg : registerDependent lnew (burst D v 1)
      = ⟨v, D ++ [lnew], ⟨D ++ [lnew], D, true, some v⟩, 1, [], false⟩ := by
    simp [registerDependent, burst, NextMicroTaskEmitter.onL, hlnew,
      addSet_of_not_mem hlnew]
  have hflushreg : flushAll (⟨v, D ++ [lnew],
        ⟨D ++ [lnew], D, true, some v⟩, 1, [], false⟩ : SignalWorld L V)
      = ⟨v, D ++ [lnew], ⟨D ++ [lnew], [], false, some v⟩, 0,
          D.map (fun x => (x, v)), false⟩ := by
    show flushN 1 _ = _
    simp [flushN, flushOne, NextMicroTaskEmitter.processStep]
  have hnodup' : (D ++ [lnew]).Nodup := by
    rw [List.nodup_append]
    refine ⟨hD, by simp, ?_⟩
    intro a ha hb
    simp only [List.mem_singleton] at hb
    subst hb
    exact hlnew ha
  have hset2 : set eqFn v' (⟨v, D ++ [lnew],
        ⟨D ++ [lnew], D, true, some v⟩, 1, [], false⟩ : SignalWorld L V)
      = burst (D ++ [lnew]) v' 2 := by
    simp [SignalWorld.set, burst, hv', NextMicroTaskEmitter.emitStep,
      addAll_nil_of_nodup hnodup']
  refine ⟨?_, ?_, ?_, ?_⟩
  · rw [hunreg, flushAll_burst]
    intro p hp
    simp only [drained, List.mem_map] at hp
    obtain ⟨x, hx, rfl⟩ := hp
    intro hcontra
    subst hcontra
    exact ((hD.mem_erase_iff).mp hx).1 rfl
  · rw [hreg, hflushreg]
  · rw [hreg, hflushreg]
    intro p hp
    simp only [List.mem_map] at hp
    obtain ⟨x, hx, rfl⟩ := hp
    intro hcontra
    subst hcontra
    exact hlnew hx
  · rw [hreg, hset2]
    rw [show (2 : Nat) = Nat.succ 1 from rfl, flushAll_burst]
    simp [drained]

open SignalWorld in
/-- Witness for `pending_flush_membership`: after `set 5`, registering
listener `1` and then `set 7` before the flush delivers `7` to both the old
listener `0` and the late listener `1`. -/
theorem pending_flush_membership_witness :
    ([0] : List Nat).Nodup ∧ (0 ∈ ([0] : List Nat)) ∧
    ((1 : Nat) ∉ ([0] : List Nat)) ∧
    (flushAll (set (fun a b : Nat => a == b) 7 (registerDependent 1
        (set (fun a b : Nat => a == b) 5
          (registerMany [0] (mkSignal 0 : SignalWorld Nat Nat)))))).log
      = [(0, 7), (1, 7)] :=
  ⟨by decide, by decide, by decide, by
    have h := (pending_flush_membership
      (fun a b : Nat => a == b) [0] 0 1 0 5 7 (by decide) (by decide)
      (by decide) (by decide) (by decide)).2.2.2
    simpa using h⟩

/-- **C1 (the failing input).** A computed signal whose three successive
tracked runs read signals `[0, 1]`, then `[0]`, then `[0, 1]` again.  After
run 2 the subscribed-upstream set `[0]` still equals the read set — dropping
works — but after run 3 the subscription set is still `[0]`: signal `1`,
dropped and then read again, is never re-registered, because
`ComputedSignalImplementation.track` leaves dropped signals inside
`this.dependencies` (it is `[0, 1]` throughout), so the second loop's
`this.dependencies.has(dep)` check skips the re-registration.  The claimed
invariant — subscribed set equals the just-read set after every
recomputation — fails, and writes to `1` no longer notify the computed. -/
theorem computed_dropped_dependency_not_resubscribed :
    (ComputedDeps.reconcile [0] (ComputedDeps.reconcile [0, 1]
        (ComputedDeps.init : ComputedDeps Nat))).subscribed = [0] ∧
    (ComputedDeps.reconcile [0, 1] (ComputedDeps.reconcile [0]
        (ComputedDeps.reconcile [0, 1]
          (ComputedDeps.init : ComputedDeps Nat)))).subscribed = [0] ∧
    1 ∉ (ComputedDeps.reconcile [0, 1] (ComputedDeps.reconcile [0]
        (ComputedDeps.reconcile [0, 1]
          (ComputedDeps.init : ComputedDeps Nat)))).subscribed ∧
    (ComputedDeps.reconcile [0, 1] (ComputedDeps.reconcile [0]
        (ComputedDeps.reconcile [0, 1]
          (ComputedDeps.init : ComputedDeps Nat)))).dependencies = [0, 1] := by
  decide

/-- Contrast supporting the bug diagnosis: the sibling `Effect.track`
reconciliation — which does delete dropped signals from `this.dependencies`
— re-subscribes to signal `1` on the same three runs. -/
theorem effect_reconcile_resubscribes_on_reread :
    (ComputedDeps.effectReconcile [0, 1] (ComputedDeps.effectReconcile [0]
        (ComputedDeps.effectReconcile [0, 1]
          (ComputedDeps.init : ComputedDeps Nat)))).subscribed = [0, 1] := by
  decide

/-- **C7 counterexample.** A tracked callback reading signal `0` twice:
`track` returns `[0, 0]` — the signal appears twice, refuting the claim that
a signal whose `get()` is called twice appears exactly once (the collector
closure at signal.ts lines 204-206 pushes unconditionally, with no
deduplication). -/
theorem track_does_not_deduplicate_counterexample :
    (trackRun (TAct.seq (TAct.aget 0) (TAct.aget 0)) []).1 = [0, 0] ∧
    List.count 0 (trackRun (TAct.seq (TAct.aget 0) (TAct.aget 0)) []).1 = 2 := by
  decide

/-- For a nonempty collector stack, executing a body appends exactly its own
`get` sequence to the innermost buffer and leaves the outer stack intact. -/
theorem execAct_cons : ∀ (a : TAct) (buf : List Nat) (rest : List (List Nat)),
    execAct a (buf :: rest) = (buf ++ trackGets a) :: rest := by
  intro a
  induction a with
  | aget s => intro buf rest; simp [execAct, trackGets]
  | seq a b iha ihb =>
    intro buf rest
    simp [execAct, trackGets, iha, ihb]
  | skip => intro buf rest; simp [execAct, trackGets]
  | sub body ih =>
    intro buf rest
    show (execAct body ([] :: buf :: rest)).tail = _
    rw [ih]
    simp [trackGets]

/-- **C7 amended.** For every tracked callback body and every prior tracker
state, `track` returns exactly the ordered list of signals whose `get()` was
called during the body's execution (outside nested `track` calls, which
report to their own tracker) — one list entry per `get()` call, duplicates
preserved, NOT deduplicated — and the prior active tracker state is restored
on exit. -/
theorem track_returns_get_sequence_with_duplicates
    (body : TAct) (stk : List (List Nat)) :
    trackRun body stk = (trackGets body, stk) := by
  rw [trackRun, execAct_cons]
  simp

theorem runEffQueueF_empty : ∀ (fuel : Nat) (s : EffSt),
    runEffQueueF fuel [] s = s := by
  intro fuel s
  cases fuel <;> rfl

/-- While the effect is already scheduled, upstream flush deliveries are
no-ops; the single queued re-run then executes the callback once. -/
theorem runEffQueueF_flushes :
    ∀ (fs : List EffTask) (fuel r : Nat),
    (∀ t ∈ fs, ∃ i, t = EffTask.flush i) →
    effQueueWeight (fs ++ [EffTask.rerun]) ≤ fuel →
    runEffQueueF fuel (fs ++ [EffTask.rerun]) ⟨true, r⟩ = ⟨false, r + 1⟩ := by
  intro fs
  induction fs with
  | nil =>
    intro fuel r _ hfuel
    simp only [effQueueWeight, List.nil_append, List.map_cons, List.map_nil,
      effTaskWeight, List.sum_cons, List.sum_nil] at hfuel
    obtain ⟨f, rfl⟩ : ∃ f, fuel = f + 1 := ⟨fuel - 1, by omega⟩
    show runEffQueueF f ([] ++ []) ⟨false, r + 1⟩ = ⟨false, r + 1⟩
    simpa using runEffQueueF_empty f _
  | cons t fs' ih =>
    intro fuel r hall hfuel
    obtain ⟨i, rfl⟩ := hall t (by simp)
    have hw : effQueueWeight ((EffTask.flush i :: fs') ++ [EffTask.rerun])
        = effQueueWeight (fs' ++ [EffTask.rerun]) + 2 := by
      simp [effQueueWeight, effTaskWeight]
      omega
    rw [hw] at hfuel
    obtain ⟨f, rfl⟩ : ∃ f, fuel = f + 1 := ⟨fuel - 1, by omega⟩
    have hstep : runEffQueueF (f + 1)
          ((EffTask.flush i :: fs') ++ [EffTask.rerun]) ⟨true, r⟩
        = runEffQueueF f (fs' ++ [EffTask.rerun]) ⟨true, r⟩ := by
      show runEffQueueF f ((fs' ++ [EffTask.rerun]) ++
        (runEffTask (EffTask.flush i) ⟨true, r⟩).2)
          (runEffTask (EffTask.flush i) ⟨true, r⟩).1 = _
      simp [runEffTask, effDependencyFn]
    rw [hstep]
    exact ih f r (fun t ht => hall t (by simp [ht])) (by omega)

open EffTask in
/-- **C8.** An Effect runs its callback exactly once synchronously at
construction (`runs = 1`); thereafter, any number `n ≥ 1` of upstream
notifications arriving within one microtask tick — the flush deliveries of
`n` distinct upstream signals' emitters to the effect's `dependencyFn` —
cause exactly one scheduled re-run of the callback after those flushes
(final `runs = 2`), not one re-run per upstream signal, because only the
first delivery finds `scheduled` unset and queues the re-run microtask. -/
theorem effect_coalesces_upstream_notifications (n : Nat) (hn : 1 ≤ n) :
    effectInit.runs = 1 ∧
    runEffQueue ((List.range n).map EffTask.flush) effectInit
      = ⟨false, 2⟩ := by
  refine ⟨rfl, ?_⟩
  obtain ⟨m, rfl⟩ : ∃ m, n = m + 1 := ⟨n - 1, by omega⟩
  have hq : (List.range (m + 1)).map EffTask.flush
      = EffTask.flush 0 :: (List.range m).map (fun i => EffTask.flush (i + 1)) := by
    rw [List.range_succ_eq_map]
    simp [Function.comp]
  rw [hq]
  show runEffQueueF _ _ _ = _
  have hw : effQueueWeight (EffTask.flush 0 ::
        (List.range m).map (fun i => EffTask.flush (i + 1)))
      = effQueueWeight ((List.range m).map (fun i => EffTask.flush (i + 1))) + 2 := by
    simp [effQueueWeight, effTaskWeight]
    omega
  rw [hw]
  have hstep : runEffQueueF
        (effQueueWeight ((List.range m).map (fun i => EffTask.flush (i + 1))) + 2)
        (EffTask.flush 0 :: (List.range m).map (fun i => EffTask.flush (i + 1)))
        effectInit
      = runEffQueueF
        (effQueueWeight ((List.range m).map (fun i => EffTask.flush (i + 1))) + 1)
        ((List.range m).map (fun i => EffTask.flush (i + 1)) ++ [EffTask.rerun])
        ⟨true, 1⟩ := by
    show runEffQueueF _ ((List.range m).map (fun i => EffTask.flush (i + 1)) ++
        (runEffTask (EffTask.flush 0) effectInit).2)
      (runEffTask (EffTask.flush 0) effectInit).1 = _
    simp [runEffTask, effDependencyFn, effectInit]
  rw [hstep]
  apply runEffQueueF_flushes
  · intro t ht
    simp only [List.mem_map, List.mem_range] at ht
    obtain ⟨i, _, rfl⟩ := ht
    exact ⟨i + 1, rfl⟩
  · simp [effQueueWeight, effTaskWeight]

/-- Witness for `effect_coalesces_upstream_notifications`: two upstream
signals notify in the same tick; the effect re-runs once. -/
theorem effect_coalesces_upstream_notifications_witness :
    1 ≤ 2 ∧
    runEffQueue ((List.range 2).map EffTask.flush) effectInit
      = ⟨false, 2⟩ :=
  ⟨by decide, (effect_coalesces_upstream_notifications 2 (by decide)).2⟩

/-- **C9.** For every key whose stored value in the backing key-value store
is present but fails to parse as JSON, constructing a storage-backed signal
throws a typed `SignalError` synchronously at construction time; it never
falls back to the caller-provided initial value and never ignores the
corrupt stored data (the result is an error, not any `ok`). -/
theorem store_signal_corrupt_value_errors {V : Type} (storage : StorageModel)
    (key : String) (initial : V) (parse : String → Option V)
    (stringify : V → String) (stored : String)
    (hstored : storage.getItem key = some stored)
    (hbad : parse stored = none) :
    storeSignalInit storage key initial parse stringify
      = Except.error ("SignalError: Failed to parse stored value for key " ++ key) ∧
    ∀ r, storeSignalInit storage key initial parse stringify ≠ Except.ok r := by
  constructor
  · simp [storeSignalInit, hstored, hbad]
  · intro r
    simp [storeSignalInit, hstored, hbad]

theorem lookup_append_lt {xs ext : List HeapNode} {i : Nat}
    (hi : i < xs.length) :
    Heap.lookup ⟨xs ++ ext⟩ i = Heap.lookup ⟨xs⟩ i := by
  simp only [Heap.lookup, List.get?_eq_getElem?]
  exact List.getElem?_append_left hi

theorem lookup_concat_self {xs : List HeapNode} {nd : HeapNode} :
    Heap.lookup ⟨xs ++ [nd]⟩ xs.length = some nd := by
  simp only [Heap.lookup, List.get?_eq_getElem?]
  exact List.getElem?_concat_length xs nd

theorem lookup_setNode_ne {h : Heap} {b i : Nat} {nd : HeapNode}
    (hne : b ≠ i) : Heap.lookup (Heap.setNode h b nd) i = Heap.lookup h i := by
  simp only [Heap.lookup, Heap.setNode, List.get?_eq_getElem?]
  exact List.getElem?_set_ne hne

theorem wfb_childrenOk {h : Heap} (hwf : h.wfb = true) :
    Heap.ChildrenOk h h.nodes.length := by
  intro i fs hi hlook p hp
  rw [Heap.wfb, List.all_eq_true] at hwf
  have hx := hwf i (by simpa using hi)
  rw [Heap.lookup] at hlook
  rw [hlook] at hx
  simp only [List.all_eq_true, decide_eq_true_eq] at hx
  exact hx p hp

theorem interp_agree {N : Nat} {h h' : Heap}
    (hok : Heap.ChildrenOk h N)
    (hagree : ∀ i, i < N → h.lookup i = h'.lookup i) :
    ∀ (fuel a : Nat), a < N → interpF fuel h a = interpF fuel h' a := by
  intro fuel
  induction fuel with
  | zero => intro a _; rfl
  | succ f ih =>
    intro a ha
    simp only [interpF]
    rw [← hagree a ha]
    cases hl : h.lookup a with
    | none => rfl
    | some nd =>
      cases nd with
      | prim n => rfl
      | obj fs =>
        dsimp only
        have hm : fs.map (fun p => (p.1, interpF f h p.2))
            = fs.map (fun p => (p.1, interpF f h' p.2)) := by
          apply List.map_congr_left
          intro p hp
          have hpc : p.2 < a := hok a fs ha hl p hp
          rw [ih p.2 (lt_trans hpc ha)]
        rw [hm]

theorem interpF_fuelInv {N : Nat} {h : Heap} (hok : Heap.ChildrenOk h N) :
    ∀ (a : Nat), a < N → ∀ (f f' : Nat), a < f → a < f' →
    interpF f h a = interpF f' h a := by
  intro a
  induction a using Nat.strong_induction_on with
  | _ a ih =>
    intro ha f f' hf hf'
    obtain ⟨fa, rfl⟩ : ∃ fa, f = fa + 1 := ⟨f - 1, by omega⟩
    obtain ⟨fb, rfl⟩ : ∃ fb, f' = fb + 1 := ⟨f' - 1, by omega⟩
    simp only [interpF]
    cases hl : h.lookup a with
    | none => rfl
    | some nd =>
      cases nd with
      | prim n => rfl
      | obj fs =>
        dsimp only
        have hm : fs.map (fun p => (p.1, interpF fa h p.2))
            = fs.map (fun p => (p.1, interpF fb h p.2)) := by
          apply List.map_congr_left
          intro p hp
          have hpc : p.2 < a := hok a fs ha hl p hp
          rw [ih p.2 hpc (by omega) fa fb (by omega) (by omega)]
        rw [hm]

mutual

/-- Copying a value tree appends only fresh nodes: old cells are untouched,
the new root is fresh and last, well-formedness is preserved, and the copy
reads back as exactly the copied tree. -/
theorem appendVal_spec : ∀ (h : Heap) (t : JVal),
    Heap.ChildrenOk h h.nodes.length →
    (∀ i, i < h.nodes.length → (appendVal h t).1.lookup i = h.lookup i) ∧
    h.nodes.length ≤ (appendVal h t).2 ∧
    (appendVal h t).1.nodes.length = (appendVal h t).2 + 1 ∧
    Heap.ChildrenOk (appendVal h t).1 (appendVal h t).1.nodes.length ∧
    Heap.interp (appendVal h t).1 (appendVal h t).2 = t
  | h, JVal.prim n, hok => by
    refine ⟨?_, le_refl _, by simp [appendVal], ?_, ?_⟩
    · intro i hi
      show Heap.lookup ⟨h.nodes ++ [HeapNode.prim n]⟩ i = h.lookup i
      exact lookup_append_lt hi
    · intro i fs2 hi hlook p hp
      simp only [appendVal, List.length_append, List.length_cons,
        List.length_nil] at hi
      rcases Nat.lt_or_ge i h.nodes.length with hlt | hge
      · rw [show Heap.lookup (appendVal h (JVal.prim n)).1 i
            = h.lookup i from lookup_append_lt hlt] at hlook
        exact hok i fs2 hlt hlook p hp
      · have hieq : i = h.nodes.length := by omega
        subst hieq
        rw [show Heap.lookup (appendVal h (JVal.prim n)).1 h.nodes.length
            = some (HeapNode.prim n) from lookup_concat_self] at hlook
        cases hlook
    · show Heap.interp ⟨h.nodes ++ [HeapNode.prim n]⟩ h.nodes.length
        = JVal.prim n
      simp only [Heap.interp, interpF, lookup_concat_self]
  | h, JVal.obj fs, hok => by
    obtain ⟨f1, f2, f3, f4, f5⟩ := appendFields_spec h fs hok
    refine ⟨?_, ?_, by simp [appendVal], ?_, ?_⟩
    · intro i hi
      show Heap.lookup ⟨(appendFields h fs).1.nodes ++
          [HeapNode.obj (appendFields h fs).2]⟩ i = h.lookup i
      rw [lookup_append_lt (lt_of_lt_of_le hi f2)]
      exact f1 i hi
    · exact f2
    · intro i fs2 hi hlook p hp
      simp only [appendVal, List.length_append, List.length_cons,
        List.length_nil] at hi
      rcases Nat.lt_or_ge i (appendFields h fs).1.nodes.length with hlt | hge
      · rw [show Heap.lookup (appendVal h (JVal.obj fs)).1 i
            = Heap.lookup (appendFields h fs).1 i from lookup_append_lt hlt]
          at hlook
        exact f3 i fs2 hlt hlook p hp
      · have hieq : i = (appendFields h fs).1.nodes.length := by omega
        subst hieq
        rw [show Heap.lookup (appendVal h (JVal.obj fs)).1
              (appendFields h fs).1.nodes.length
            = some (HeapNode.obj (appendFields h fs).2)
            from lookup_concat_self] at hlook
        cases hlook
        exact (f4 p hp).2
    · show Heap.interp ⟨(appendFields h fs).1.nodes ++
          [HeapNode.obj (appendFields h fs).2]⟩
            (appendFields h fs).1.nodes.length = JVal.obj fs
      rw [Heap.interp]
      simp only [interpF, lookup_concat_self]
      congr 1
      have hagree : ∀ i, i < (appendFields h fs).1.nodes.length →
          Heap.lookup (appendFields h fs).1 i
            = Heap.lookup ⟨(appendFields h fs).1.nodes ++
                [HeapNode.obj (appendFields h fs).2]⟩ i := by
        intro i hi
        exact (lookup_append_lt hi).symm
      have hmap : (appendFields h fs).2.map (fun p =>
            (p.1, interpF (appendFields h fs).1.nodes.length
              ⟨(appendFields h fs).1.nodes ++
                [HeapNode.obj (appendFields h fs).2]⟩ p.2))
          = (appendFields h fs).2.map (fun p =>
            (p.1, Heap.interp (appendFields h fs).1 p.2)) := by
        apply List.map_congr_left
        intro p hp
        obtain ⟨hp1, hp2⟩ := f4 p hp
        have e1 : interpF (appendFields h fs).1.nodes.length
              (appendFields h fs).1 p.2
            = interpF (appendFields h fs).1.nodes.length
              ⟨(appendFields h fs).1.nodes ++
                [HeapNode.obj (appendFields h fs).2]⟩ p.2 :=
          interp_agree f3 hagree _ p.2 hp2
        have e2 : interpF (appendFields h fs).1.nodes.length
              (appendFields h fs).1 p.2
            = interpF (p.2 + 1) (appendFields h fs).1 p.2 :=
          interpF_fuelInv f3 p.2 hp2 _ (p.2 + 1) hp2 (by omega)
        rw [← e1, e2]
        rfl
      rw [hmap, f5]

theorem appendFields_spec : ∀ (h : Heap) (fs : JFields),
    Heap.ChildrenOk h h.nodes.length →
    (∀ i, i < h.nodes.length → (appendFields h fs).1.lookup i = h.lookup i) ∧
    h.nodes.length ≤ (appendFields h fs).1.nodes.length ∧
    Heap.ChildrenOk (appendFields h fs).1 (appendFields h fs).1.nodes.length ∧
    (∀ p ∈ (appendFields h fs).2,
      h.nodes.length ≤ p.2 ∧ p.2 < (appendFields h fs).1.nodes.length) ∧
    listToJFields ((appendFields h fs).2.map
      (fun p => (p.1, Heap.interp (appendFields h fs).1 p.2))) = fs
  | h, JFields.fnil, hok => by
    refine ⟨fun i _ => rfl, le_refl _, hok, by simp [appendFields], rfl⟩
  | h, JFields.fcons k v rest, hok => by
    obtain ⟨v1, v2, v3, v4, v5⟩ := appendVal_spec h v hok
    obtain ⟨r1, r2, r3, r4, r5⟩ := appendFields_spec (appendVal h v).1 rest v4
    have hlen1 : h.nodes.length ≤ (appendVal h v).1.nodes.length := by
      omega
    refine ⟨?_, le_trans hlen1 r2, r3, ?_, ?_⟩
    · intro i hi
      show (appendFields (appendVal h v).1 rest).1.lookup i = h.lookup i
      rw [r1 i (lt_of_lt_of_le hi hlen1)]
      exact v1 i hi
    · intro p hp
      have hfeq : (appendFields h (JFields.fcons k v rest)).1
          = (appendFields (appendVal h v).1 rest).1 := rfl
      rw [hfeq]
      simp only [appendFields, List.mem_cons] at hp
      rcases hp with rfl | hp
      · exact ⟨v2, by omega⟩
      · obtain ⟨ha, hb⟩ := r4 p hp
        exact ⟨le_trans hlen1 ha, hb⟩
    · show listToJFields ((((k, (appendVal h v).2)) ::
          (appendFields (appendVal h v).1 rest).2).map
          (fun p => (p.1, Heap.interp
            (appendFields (appendVal h v).1 rest).1 p.2)))
        = JFields.fcons k v rest
      simp only [List.map_cons, listToJFields]
      have hv2 : Heap.interp (appendFields (appendVal h v).1 rest).1
          (appendVal h v).2 = v := by
        have e1 : interpF ((appendVal h v).2 + 1) (appendVal h v).1
              (appendVal h v).2
            = interpF ((appendVal h v).2 + 1)
              (appendFields (appendVal h v).1 rest).1 (appendVal h v).2 :=
          interp_agree v4 (fun i hi => (r1 i hi).symm) _ _ (by omega)
        rw [Heap.interp, ← e1]
        exact v5
      rw [hv2, r5]

end

/-- Delivering a pending heap value to a list of listeners hands each one a
fresh clone: old cells are untouched, every clone root is fresh, roots are
strictly increasing (hence pairwise distinct objects), and every clone reads
back as the delivered value. -/
theorem deliverClones_spec :
    ∀ (ls : List Nat) (h : Heap) (a : Nat),
    Heap.ChildrenOk h h.nodes.length → a < h.nodes.length →
    Heap.ChildrenOk (deliverClones h a ls).1
      (deliverClones h a ls).1.nodes.length ∧
    h.nodes.length ≤ (deliverClones h a ls).1.nodes.length ∧
    (∀ i, i < h.nodes.length →
      (deliverClones h a ls).1.lookup i = h.lookup i) ∧
    (∀ p ∈ (deliverClones h a ls).2,
      h.nodes.length ≤ p.2 ∧ p.2 < (deliverClones h a ls).1.nodes.length ∧
      Heap.interp (deliverClones h a ls).1 p.2 = Heap.interp h a) ∧
    ((deliverClones h a ls).2.map Prod.snd).Pairwise (· < ·)
  | [], h, a, hok, ha => by
      exact ⟨hok, le_refl _, fun i _ => rfl, by simp [deliverClones],
        by simp [deliverClones]⟩
  | l :: ls, h, a, hok, ha => by
      obtain ⟨c1, c2, c3, c4, c5⟩ := appendVal_spec h (h.interp a) hok
      have hclen : h.nodes.length < (cloneVal h a).1.nodes.length := by
        show h.nodes.length < (appendVal h (h.interp a)).1.nodes.length
        omega
      have hok1 : Heap.ChildrenOk (cloneVal h a).1
          (cloneVal h a).1.nodes.length := c4
      have ha1 : a < (cloneVal h a).1.nodes.length := lt_trans ha hclen
      obtain ⟨d1, d2, d3, d4, d5⟩ :=
        deliverClones_spec ls (cloneVal h a).1 a hok1 ha1
      have hia : Heap.interp (cloneVal h a).1 a = Heap.interp h a := by
        rw [Heap.interp, Heap.interp]
        exact (interp_agree hok (fun i hi => (c1 i hi).symm) (a + 1) a ha).symm
      have hunf : deliverClones h a (l :: ls)
          = ((deliverClones (cloneVal h a).1 a ls).1,
             (l, (cloneVal h a).2)
               :: (deliverClones (cloneVal h a).1 a ls).2) := rfl
      rw [hunf]
      have hrootlt : (cloneVal h a).2 < (cloneVal h a).1.nodes.length := by
        show (appendVal h (h.interp a)).2 < (appendVal h (h.interp a)).1.nodes.length
        omega
      refine ⟨d1, le_trans (le_of_lt hclen) d2, ?_, ?_, ?_⟩
      · intro i hi
        rw [d3 i (lt_trans hi hclen)]
        exact c1 i hi
      · intro p hp
        rcases List.mem_cons.mp hp with rfl | hp
        · refine ⟨c2, lt_of_lt_of_le hrootlt d2, ?_⟩
          have e1 : Heap.interp (deliverClones (cloneVal h a).1 a ls).1
                (cloneVal h a).2
              = Heap.interp (cloneVal h a).1 (cloneVal h a).2 := by
            rw [Heap.interp, Heap.interp]
            exact (interp_agree hok1 (fun i hi => (d3 i hi).symm) _ _ hrootlt).symm
          rw [e1]
          exact c5
        · obtain ⟨ha2, hb2, hc2⟩ := d4 p hp
          exact ⟨le_trans (le_of_lt hclen) ha2, hb2, by rw [hc2, hia]⟩
      · simp only [List.map_cons]
        rw [List.pairwise_cons]
        refine ⟨?_, d5⟩
        intro x hx
        simp only [List.mem_map] at hx
        obtain ⟨p, hp, rfl⟩ := hx
        have := (d4 p hp).1
        omega

/-- **C10.** `get()` hands out a `structuredClone` of the stored value and
each flush delivery hands each listener its own `structuredClone`: the copy
is value-equal to the stored value but lives entirely at fresh addresses (in
particular the returned root is not a reference into the stored value), the
per-listener copies are pairwise-distinct fresh objects, and mutating any
cell of any handed-out copy (any address at or above the pre-call heap size)
never changes the value observed by subsequent `get()` calls on the
signal. -/
theorem signal_values_are_isolated_deep_copies (h : Heap) (a : Nat)
    (hwf : h.wfb = true) (ha : a < h.nodes.length) :
    Heap.interp (cloneVal h a).1 (cloneVal h a).2 = Heap.interp h a ∧
    h.nodes.length ≤ (cloneVal h a).2 ∧
    (∀ b nd, h.nodes.length ≤ b →
      Heap.interp (Heap.setNode (cloneVal h a).1 b nd) a = Heap.interp h a) ∧
    (∀ ls : List Nat,
      (∀ p ∈ (deliverClones h a ls).2,
        h.nodes.length ≤ p.2 ∧
        Heap.interp (deliverClones h a ls).1 p.2 = Heap.interp h a) ∧
      ((deliverClones h a ls).2.map Prod.snd).Pairwise (· < ·) ∧
      (∀ b nd, h.nodes.length ≤ b →
        Heap.interp (Heap.setNode (deliverClones h a ls).1 b nd) a
          = Heap.interp h a)) := by
  have hok := wfb_childrenOk hwf
  obtain ⟨c1, c2, c3, c4, c5⟩ := appendVal_spec h (h.interp a) hok
  refine ⟨c5, c2, ?_, ?_⟩
  · intro b nd hb
    rw [Heap.interp, Heap.interp]
    refine (interp_agree hok ?_ (a + 1) a ha).symm
    intro i hi
    rw [lookup_setNode_ne (by omega)]
    exact (c1 i hi).symm
  · intro ls
    obtain ⟨d1, d2, d3, d4, d5⟩ := deliverClones_spec ls h a hok ha
    refine ⟨fun p hp => ⟨(d4 p hp).1, (d4 p hp).2.2⟩, d5, ?_⟩
    intro b nd hb
    rw [Heap.interp, Heap.interp]
    refine (interp_agree hok ?_ (a + 1) a ha).symm
    intro i hi
    rw [lookup_setNode_ne (by omega)]
    exact (d3 i hi).symm

/-- Witness for `signal_values_are_isolated_deep_copies`: the heap
`[prim 5, obj x->0]` with the signal value at address 1.  The clone root is
address 3; mutating the clone root leaves the stored value's reading
unchanged. -/
theorem signal_values_are_isolated_deep_copies_witness :
    (Heap.wfb ⟨[HeapNode.prim 5, HeapNode.obj [("x", 0)]]⟩ = true) ∧
    (1 < (⟨[HeapNode.prim 5, HeapNode.obj [("x", 0)]]⟩ : Heap).nodes.length) ∧
    Heap.interp (cloneVal ⟨[HeapNode.prim 5, HeapNode.obj [("x", 0)]]⟩ 1).1
        (cloneVal ⟨[HeapNode.prim 5, HeapNode.obj [("x", 0)]]⟩ 1).2
      = Heap.interp ⟨[HeapNode.prim 5, HeapNode.obj [("x", 0)]]⟩ 1 ∧
    Heap.interp (Heap.setNode
        (cloneVal ⟨[HeapNode.prim 5, HeapNode.obj [("x", 0)]]⟩ 1).1 3
        (HeapNode.prim 99)) 1
      = Heap.interp ⟨[HeapNode.prim 5, HeapNode.obj [("x", 0)]]⟩ 1 :=
  ⟨by decide, by decide,
   (signal_values_are_isolated_deep_copies
      ⟨[HeapNode.prim 5, HeapNode.obj [("x", 0)]]⟩ 1
      (by decide) (by decide)).1,
   (signal_values_are_isolated_deep_copies
      ⟨[HeapNode.prim 5, HeapNode.obj [("x", 0)]]⟩ 1
      (by decide) (by decide)).2.2.1 3 (HeapNode.prim 99) (by decide)⟩

/-- **C4 counterexample.**  In the claim's scenario the element previously
representing id=2 is the second initial clone (`nodeId 1`, bound text
`"Bob"`).  After the array changes, the rendered elements are `nodeId 2` and
`nodeId 3` — both brand-new clones (`el.cloneNode(true)` runs for every
index on every update, handleForBindings lines 521-534, and the positional
`replaceWith` discards the old element) — and `nodeId 1` is no longer in the
DOM.  So the id=2 element is destroyed and recreated, not reused, refuting
the claim's reuse assertion; the final texts are still
`['Robert', 'Charlie']`. -/
theorem for_binding_never_reuses_elements_counterexample :
    (c4State1.dom.map DElem.nodeId = [0, 1]) ∧
    ((c4State1.dom.map DElem.boundText).getD 1 DVal.undef
      = DVal.str ("Bob")) ∧
    ((1 : Nat) ∉ c4State2.dom.map DElem.nodeId) ∧
    (c4State2.dom.map DElem.nodeId = [2, 3]) := by
  decide

/-- **C4 amended.**  When the array changes from
`[{id:1,name:'Alice'},{id:2,name:'Bob'}]` to
`[{id:2,name:'Robert'},{id:3,name:'Charlie'}]` under
`bind:for="item of items by item.id"`: every index receives a freshly
cloned element replacing the positional existing one, so no DOM element of
the previous render survives — the id=2 element is recreated, not reused
(likewise its per-index signal: the identity check of
`manageArraySignals` line 385 compares a `structuredClone` of the old value
by reference against the new item, so it never certifies identity here);
the id=1 element is removed; a new element is created for id=3; and the
final rendered texts are `['Robert', 'Charlie']`. -/
theorem for_binding_rebuilds_all_elements :
    (c4State1.dom.map DElem.boundText
      = [DVal.str ("Alice"), DVal.str ("Bob")]) ∧
    (c4State2.dom.map DElem.boundText
      = [DVal.str ("Robert"), DVal.str ("Charlie")]) ∧
    (∀ e ∈ c4State2.dom, c4State1.nextId ≤ e.nodeId) ∧
    (∀ e1 ∈ c4State1.dom, ∀ e2 ∈ c4State2.dom, e1.nodeId ≠ e2.nodeId) ∧
    (c4State2.ctx.map Prod.fst
      = [CtxKey.forIdx "items" 0, CtxKey.forIdx "items" 1]) ∧
    (ctxFind c4State2.ctx (CtxKey.forIdx "items" 0) = some ⟨c4Robert⟩) ∧
    (ctxFind c4State2.ctx (CtxKey.forIdx "items" 1) = some ⟨c4Charlie⟩) := by
  decide

/-- Witness for `store_signal_corrupt_value_errors`: storage holding an
unparsable value under key `k`; construction yields the typed error. -/
theorem store_signal_corrupt_value_errors_witness :
    (StorageModel.getItem ⟨[("k", "oops")]⟩ "k" = some ("oops")) ∧
    ((fun _ : String => (none : Option Nat)) "oops" = none) ∧
    storeSignalInit (⟨[("k", "oops")]⟩ : StorageModel) "k" 42
        (fun _ => (none : Option Nat)) (fun n => toString n)
      = Except.error ("SignalError: Failed to parse stored value for key " ++ "k") :=
  ⟨by decide, rfl,
   (store_signal_corrupt_value_errors ⟨[("k", "oops")]⟩ "k" 42
      (fun _ => (none : Option Nat)) (fun n => toString n) "oops"
      (by decide) rfl).1⟩

end Indulgent
